import Mathlib

/-!
Verification of the `rai` code-similarity extension.

The development shallowly embeds the core of the repository:

* `utils/utils.ts`: `splitCodeIntoChunks`, `normalizeChunk`,
  `getFileModifiedDate` (as an abstract file-system parameter),
  `isFileCached`, `mergePairs`;
* `model/model.ts`: `generateEmbeddings` over an abstract embedding provider;
* `pglite/pglite.ts`: the relational state (`files`, `code_chunks`), the
  `deleteEmbeddings` / `upsertFile` / `insertEmbeddings` operations and the
  `calculateSimilarity` SQL query, with the store's vector-distance operator
  `<=>` kept abstract as a parameter `dist`;
* `extension.ts`: `analyzeCodeSimilarity` (the transactional replace-file
  path), `analyzeFile` / `isModified` (the incremental scheduler) and
  `mergePairs` (the group-merge pass), including a heap model of the
  JavaScript object graph for the frame property of `mergePairs`.

Numbers are embedded exactly: line numbers as `Int`, similarities and
embedding coordinates as `ℚ` (the SQL/JS arithmetic on them is ordinary
field arithmetic in the fragments used here).
-/

namespace Rai

/-! ## Chunker (`utils/utils.ts`)

`normalizeChunk` is the chain
`chunk.replace(/\s+/g, " ").replace(/(?<=\>)\s+(?=\<)/g, "").trim()`.
Strings are processed as their character lists. -/

/-- The characters matched by the JavaScript regex class `\s` (and removed by
`String.prototype.trim`): ASCII whitespace, NBSP, BOM, the Unicode space
separators and the line/paragraph separators. -/
def jsWhitespaceChars : List Char :=
  [' ', '\t', '\n', '\r', '\x0b', '\x0c', '\u00A0', '\u1680',
   '\u2000', '\u2001', '\u2002', '\u2003', '\u2004', '\u2005',
   '\u2006', '\u2007', '\u2008', '\u2009', '\u200A', '\u2028',
   '\u2029', '\u202F', '\u205F', '\u3000', '\uFEFF']

/-- Whether a character is JavaScript whitespace. -/
def isJsWs (c : Char) : Bool := decide (c ∈ jsWhitespaceChars)

/-- `replace(/\s+/g, " ")` on a character list: every maximal run of
whitespace is replaced by a single space.  The boolean argument records
whether the previous character was part of a whitespace run (in which case
further whitespace of the same run emits nothing). -/
def collapseWsAux : Bool → List Char → List Char
  | _, [] => []
  | prevWs, c :: rest =>
    if isJsWs c then
      if prevWs then collapseWsAux true rest
      else ' ' :: collapseWsAux true rest
    else c :: collapseWsAux false rest

/-- `replace(/\s+/g, " ")`. -/
def collapseWs (l : List Char) : List Char := collapseWsAux false l

/-- `replace(/(?<=\>)\s+(?=\<)/g, "")` on a character list: a maximal
nonempty whitespace run that directly follows `>` and is directly followed
by `<` is deleted. -/
def stripBetweenTags : List Char → List Char
  | [] => []
  | c :: rest =>
    if c = '>' ∧ rest.takeWhile isJsWs ≠ [] ∧
        (rest.dropWhile isJsWs).head? = some '<' then
      c :: stripBetweenTags (rest.dropWhile isJsWs)
    else c :: stripBetweenTags rest
termination_by l => l.length
decreasing_by
  · have := (List.dropWhile_sublist (l := rest) isJsWs).length_le
    simp only [List.length_cons]
    omega
  · simp

/-- `String.prototype.trim` on a character list. -/
def jsTrim (l : List Char) : List Char :=
  ((l.dropWhile isJsWs).reverse.dropWhile isJsWs).reverse

/-- `normalizeChunk` from `utils/utils.ts`: collapse whitespace runs to one
space, strip whitespace directly between adjacent angle-bracket tags, then
trim. -/
def normalizeChunk (s : String) : String :=
  String.mk (jsTrim (stripBetweenTags (collapseWs s.data)))

/-- `splitCodeIntoChunks` from `utils/utils.ts`: split the code on `"\n"`,
then for `i = 0, 1, ...` while `i <= lines.length - chunkSize` emit the
normalized join of `lines.slice(i, i + chunkSize)`.  The number of loop
iterations (`lines.length - chunkSize + 1` clamped at `0`) is expressed with
truncated `Nat` subtraction. -/
def splitCodeIntoChunks (code : String) (chunkSize : Nat) : List String :=
  (List.range ((code.splitOn "\n").length + 1 - chunkSize)).map
    (fun i => normalizeChunk
      (String.intercalate "\n" (((code.splitOn "\n").drop i).take chunkSize)))

theorem splitCodeIntoChunks_length (code : String) (w : Nat) :
    (splitCodeIntoChunks code w).length = (code.splitOn "\n").length + 1 - w := by
  simp [splitCodeIntoChunks]

/-- Claim C5: for every input text and every `window_size w > 0`,
`splitCodeIntoChunks(text, w)` returns exactly `max(0, line_count - w + 1)`
normalized windows; window `i` is the normalization of the join of exactly
`w` consecutive lines starting at line index `i`; and when
`line_count < w` the result is the empty sequence.  (The embedding is a pure
function, so the absence of side effects is inherent.) -/
theorem splitCodeIntoChunks_spec (code : String) (w : Nat) (hw : 0 < w) :
    ((splitCodeIntoChunks code w).length : ℤ)
        = max 0 (((code.splitOn "\n").length : ℤ) - w + 1)
      ∧ (∀ i, i < (splitCodeIntoChunks code w).length →
          (splitCodeIntoChunks code w).getD i ""
              = normalizeChunk
                  (String.intercalate "\n" (((code.splitOn "\n").drop i).take w))
            ∧ (((code.splitOn "\n").drop i).take w).length = w)
      ∧ ((code.splitOn "\n").length < w → splitCodeIntoChunks code w = []) := by
  refine ⟨?_, ?_, ?_⟩
  · have h := splitCodeIntoChunks_length code w
    omega
  · intro i hi
    have hlen : (splitCodeIntoChunks code w).length
        = (code.splitOn "\n").length + 1 - w := splitCodeIntoChunks_length code w
    constructor
    · have hi' : i < (splitCodeIntoChunks code w).length := hi
      rw [List.getD_eq_getElem?_getD, List.getElem?_eq_getElem hi']
      simp [splitCodeIntoChunks]
    · have : i + w ≤ (code.splitOn "\n").length := by omega
      simp only [List.length_take, List.length_drop]
      omega
  · intro h
    have : (code.splitOn "\n").length + 1 - w = 0 := by omega
    simp [splitCodeIntoChunks, this]

/-- Witness for C5 at `code = "a"`, `w = 5`: a one-line file with a window
size of `5` produces the empty sequence of windows. -/
theorem splitCodeIntoChunks_spec_witness :
    0 < 5
      ∧ (((splitCodeIntoChunks "a" 5).length : ℤ)
            = max 0 ((("a".splitOn "\n").length : ℤ) - 5 + 1)
          ∧ (∀ i, i < (splitCodeIntoChunks "a" 5).length →
              (splitCodeIntoChunks "a" 5).getD i ""
                  = normalizeChunk
                      (String.intercalate "\n" ((("a".splitOn "\n").drop i).take 5))
                ∧ ((("a".splitOn "\n").drop i).take 5).length = 5)
          ∧ (("a".splitOn "\n").length < 5 → splitCodeIntoChunks "a" 5 = [])) :=
  ⟨by decide, splitCodeIntoChunks_spec "a" 5 (by decide)⟩

/-! ### Idempotence of normalization (Claim C9)

The normal form produced by `normalizeChunk` is characterized by three
invariants: every whitespace character is a plain space (`WsSingle`), no two
whitespace characters are adjacent (`NoAdjWs`), and no space sits directly
between `>` and `<` (`¬ HasGap`), plus nonwhitespace ends.  Each stage
establishes its invariant and the later stages preserve the earlier ones, so
a second pass is the identity. -/

/-- Every whitespace character of `l` is a plain space. -/
def WsSingle (l : List Char) : Prop := ∀ c ∈ l, isJsWs c = true → c = ' '

/-- No two adjacent characters of `l` are both whitespace. -/
def NoAdjWs (l : List Char) : Prop :=
  l.Chain' (fun a b => ¬(isJsWs a = true ∧ isJsWs b = true))

/-- `l` contains a whitespace character directly between `>` and `<`. -/
def HasGap (l : List Char) : Prop :=
  ∃ b, isJsWs b = true ∧ List.IsInfix ['>', b, '<'] l

theorem isJsWs_space : isJsWs ' ' = true := by decide

theorem isJsWs_gt : isJsWs '>' = false := by decide

theorem isJsWs_lt : isJsWs '<' = false := by decide

theorem head?_dropWhile_not (p : Char → Bool) (l : List Char) :
    ∀ c, (l.dropWhile p).head? = some c → p c = false := by
  induction l with
  | nil => simp [List.dropWhile]
  | cons a t ih =>
    intro c h
    by_cases hp : p a
    · rw [List.dropWhile_cons, if_pos hp] at h
      exact ih c h
    · rw [List.dropWhile_cons, if_neg hp] at h
      simp only [List.head?_cons, Option.some.injEq] at h
      rw [← h]
      exact Bool.eq_false_iff.mpr hp

theorem dropWhile_eq_self_of_head (p : Char → Bool) (l : List Char)
    (h : ∀ c, l.head? = some c → p c = false) : l.dropWhile p = l := by
  cases l with
  | nil => rfl
  | cons a t =>
    rw [List.dropWhile_cons, if_neg]
    simp [h a rfl]

theorem collapseWsAux_wsSingle (l : List Char) :
    ∀ b, WsSingle (collapseWsAux b l) := by
  induction l with
  | nil => intro b; simp [collapseWsAux, WsSingle]
  | cons c rest ih =>
    intro b
    by_cases hc : isJsWs c = true
    · cases b with
      | true =>
        simpa [collapseWsAux, hc] using ih true
      | false =>
        intro x hx hwx
        simp only [collapseWsAux, hc, if_true, if_pos] at hx
        rcases List.mem_cons.mp hx with h | h
        · exact h
        · exact ih true x h hwx
    · intro x hx hwx
      simp only [collapseWsAux, hc] at hx
      rcases List.mem_cons.mp hx with h | h
      · subst h; exact absurd hwx (by simp [hc])
      · exact ih false x h hwx

theorem collapseWsAux_true_head (l : List Char) :
    ∀ c, (collapseWsAux true l).head? = some c → isJsWs c = false := by
  induction l with
  | nil => simp [collapseWsAux]
  | cons a rest ih =>
    intro c h
    by_cases ha : isJsWs a = true
    · rw [show collapseWsAux true (a :: rest) = collapseWsAux true rest by
        simp [collapseWsAux, ha]] at h
      exact ih c h
    · rw [show collapseWsAux true (a :: rest) = a :: collapseWsAux false rest by
        simp [collapseWsAux, ha]] at h
      simp only [List.head?_cons, Option.some.injEq] at h
      rw [← h]
      exact Bool.eq_false_iff.mpr ha

theorem collapseWsAux_noAdjWs (l : List Char) :
    ∀ b, NoAdjWs (collapseWsAux b l) := by
  induction l with
  | nil => intro b; simp [collapseWsAux, NoAdjWs]
  | cons c rest ih =>
    intro b
    by_cases hc : isJsWs c = true
    · cases b with
      | true => simpa [collapseWsAux, hc] using ih true
      | false =>
        rw [show collapseWsAux false (c :: rest) = ' ' :: collapseWsAux true rest by
          simp [collapseWsAux, hc]]
        rw [NoAdjWs, List.chain'_cons']
        refine ⟨?_, ih true⟩
        intro y hy
        have := collapseWsAux_true_head rest y hy
        simp [this]
    · rw [show collapseWsAux b (c :: rest) = c :: collapseWsAux false rest by
        simp [collapseWsAux, hc]]
      rw [NoAdjWs, List.chain'_cons']
      refine ⟨?_, ih false⟩
      intro y _
      simp [hc]

theorem collapseWsAux_eq_self (l : List Char) (h1 : WsSingle l) (h2 : NoAdjWs l) :
    collapseWsAux false l = l ∧
      ((∀ c, l.head? = some c → isJsWs c = false) → collapseWsAux true l = l) := by
  induction l with
  | nil => exact ⟨rfl, fun _ => rfl⟩
  | cons c rest ih =>
    have h1r : WsSingle rest := fun x hx => h1 x (List.mem_cons_of_mem c hx)
    have h2' := (List.chain'_cons'.mp h2)
    have ihr := ih h1r h2'.2
    by_cases hc : isJsWs c = true
    · have hsp : c = ' ' := h1 c (List.mem_cons_self c rest) hc
      have hrest_head : ∀ y, rest.head? = some y → isJsWs y = false := by
        intro y hy
        have := h2'.1 y hy
        cases h : isJsWs y with
        | false => rfl
        | true => exact absurd ⟨hc, h⟩ this
      have htr : collapseWsAux true rest = rest := ihr.2 hrest_head
      constructor
      · rw [show collapseWsAux false (c :: rest) = ' ' :: collapseWsAux true rest by
          simp [collapseWsAux, hc]]
        rw [htr, hsp]
      · intro hhead
        exact absurd (hhead c rfl) (by simp [hc])
    · have hstep : ∀ b, collapseWsAux b (c :: rest) = c :: collapseWsAux false rest := by
        intro b; simp [collapseWsAux, hc]
      constructor
      · rw [hstep false, ihr.1]
      · intro _
        rw [hstep true, ihr.1]

/-- Characters of the tag-strip output all come from the input. -/
theorem mem_stripBetweenTags (l : List Char) :
    ∀ c, c ∈ stripBetweenTags l → c ∈ l := by
  induction l using stripBetweenTags.induct with
  | case1 => simp [stripBetweenTags]
  | case2 c rest hcond ih =>
    intro x hx
    rw [stripBetweenTags, if_pos hcond] at hx
    rcases List.mem_cons.mp hx with h | h
    · simp [h]
    · exact List.mem_cons_of_mem c
        ((List.dropWhile_suffix isJsWs).sublist.mem (ih x h))
  | case3 c rest hcond ih =>
    intro x hx
    rw [stripBetweenTags, if_neg hcond] at hx
    rcases List.mem_cons.mp hx with h | h
    · simp [h]
    · exact List.mem_cons_of_mem c (ih x h)

theorem stripBetweenTags_head? (l : List Char) :
    (stripBetweenTags l).head? = l.head? := by
  cases l with
  | nil => simp [stripBetweenTags]
  | cons c rest =>
    rw [stripBetweenTags]
    split <;> rfl

theorem stripBetweenTags_noAdjWs (l : List Char) (h : NoAdjWs l) :
    NoAdjWs (stripBetweenTags l) := by
  induction l using stripBetweenTags.induct with
  | case1 => simp [stripBetweenTags, NoAdjWs]
  | case2 c rest hcond ih =>
    rw [stripBetweenTags, if_pos hcond]
    have hsuf : (rest.dropWhile isJsWs).IsSuffix (c :: rest) :=
      (List.dropWhile_suffix isJsWs).trans (List.suffix_cons c rest)
    have hafter : NoAdjWs (rest.dropWhile isJsWs) := h.suffix hsuf
    rw [NoAdjWs, List.chain'_cons']
    refine ⟨?_, ih hafter⟩
    intro y hy
    rw [stripBetweenTags_head?, hcond.2.2] at hy
    simp only [Option.mem_def, Option.some.injEq] at hy
    rw [← hy]
    simp [isJsWs_lt]
  | case3 c rest hcond ih =>
    rw [stripBetweenTags, if_neg hcond]
    have h' := List.chain'_cons'.mp h
    rw [NoAdjWs, List.chain'_cons']
    refine ⟨?_, ih h'.2⟩
    intro y hy
    rw [stripBetweenTags_head?] at hy
    exact h'.1 y hy

theorem HasGap.mono {l₁ l₂ : List Char} (h : HasGap l₁)
    (hle : List.IsInfix l₁ l₂) : HasGap l₂ := by
  obtain ⟨b, hb, hinf⟩ := h
  exact ⟨b, hb, hinf.trans hle⟩

theorem not_hasGap_nil : ¬ HasGap [] := by
  rintro ⟨b, _, hinf⟩
  have := hinf.sublist.length_le
  simp at this

theorem stripBetweenTags_not_hasGap (l : List Char)
    (h1 : WsSingle l) (h2 : NoAdjWs l) : ¬ HasGap (stripBetweenTags l) := by
  induction l using stripBetweenTags.induct with
  | case1 => simpa [stripBetweenTags] using not_hasGap_nil
  | case2 c rest hcond ih =>
    have hsuf : (rest.dropWhile isJsWs).IsSuffix (c :: rest) :=
      (List.dropWhile_suffix isJsWs).trans (List.suffix_cons c rest)
    have h1' : WsSingle (rest.dropWhile isJsWs) :=
      fun x hx => h1 x (hsuf.sublist.mem hx)
    have h2' : NoAdjWs (rest.dropWhile isJsWs) := h2.suffix hsuf
    have ihafter := ih h1' h2'
    rw [stripBetweenTags, if_pos hcond]
    obtain ⟨rest₂, hafter⟩ : ∃ t, rest.dropWhile isJsWs = '<' :: t := by
      cases hdw : rest.dropWhile isJsWs with
      | nil => rw [hdw] at hcond; simp at hcond
      | cons a t =>
        rw [hdw] at hcond
        have : a = '<' := by simpa using hcond.2.2
        exact ⟨t, by rw [this]⟩
    have hstrip_after : stripBetweenTags (rest.dropWhile isJsWs)
        = '<' :: stripBetweenTags rest₂ := by
      rw [hafter, stripBetweenTags, if_neg]
      rintro ⟨hlt, -⟩
      exact absurd hlt (by decide)
    rintro ⟨b, hb, hinf⟩
    rw [hstrip_after] at hinf ihafter
    rcases List.infix_cons_iff.mp hinf with hpre | hinf₂
    · obtain ⟨t, ht⟩ := hpre
      simp only [List.cons_append, List.nil_append] at ht
      injection ht with h1 h2
      injection h2 with h3 h4
      rw [h3] at hb
      exact absurd hb (by simp [isJsWs_lt])
    · rcases List.infix_cons_iff.mp hinf₂ with hpre | hinf₃
      · obtain ⟨t, ht⟩ := hpre
        simp only [List.cons_append, List.nil_append] at ht
        injection ht with h1 h2
        exact absurd h1 (by decide)
      · exact ihafter ⟨b, hb, hinf₃.trans ((List.suffix_cons '<' _).isInfix)⟩
  | case3 c rest hcond ih =>
    have h1r : WsSingle rest := fun x hx => h1 x (List.mem_cons_of_mem c hx)
    have h2r := (List.chain'_cons'.mp h2)
    have ihr := ih h1r h2r.2
    rw [stripBetweenTags, if_neg hcond]
    rintro ⟨b, hb, hinf⟩
    rcases List.infix_cons_iff.mp hinf with hpre | hinf₂
    · obtain ⟨t, ht⟩ := hpre
      simp only [List.cons_append, List.nil_append] at ht
      injection ht with hgt hrest_eq'
      have hc : c = '>' := hgt.symm
      have hrest_eq : stripBetweenTags rest = b :: '<' :: t := hrest_eq'.symm
      have hhead : rest.head? = some b := by
        rw [← stripBetweenTags_head?, hrest_eq]; rfl
      obtain ⟨rest', hrest⟩ : ∃ t', rest = b :: t' := by
        cases rest with
        | nil => simp at hhead
        | cons a t' =>
          simp only [List.head?_cons, Option.some.injEq] at hhead
          exact ⟨t', by rw [hhead]⟩
      have hbne : b ≠ '>' := by
        intro hbgt
        rw [hbgt] at hb
        exact absurd hb (by simp [isJsWs_gt])
      have hstrip_rest : stripBetweenTags rest = b :: stripBetweenTags rest' := by
        rw [hrest, stripBetweenTags, if_neg]
        rintro ⟨hbgt, -⟩
        exact hbne hbgt
      have hhead' : rest'.head? = some '<' := by
        rw [← stripBetweenTags_head?]
        rw [hstrip_rest] at hrest_eq
        injection hrest_eq with h5 h6
        rw [h6]; rfl
      apply hcond
      refine ⟨hc, ?_, ?_⟩
      · rw [hrest, List.takeWhile_cons, if_pos hb]
        simp
      · rw [hrest, List.dropWhile_cons, if_pos hb,
          dropWhile_eq_self_of_head isJsWs rest']
        · exact hhead'
        · intro y hy
          rw [hhead'] at hy
          simp only [Option.some.injEq] at hy
          rw [← hy]
          exact isJsWs_lt
    · exact ihr ⟨b, hb, hinf₂⟩

theorem stripBetweenTags_eq_self (l : List Char)
    (h2 : NoAdjWs l) (hg : ¬ HasGap l) : stripBetweenTags l = l := by
  induction l using stripBetweenTags.induct with
  | case1 => simp [stripBetweenTags]
  | case2 c rest hcond ih =>
    exfalso
    obtain ⟨hc, hrun, hhead⟩ := hcond
    obtain ⟨b, rest', hrest, hb⟩ : ∃ b t, rest = b :: t ∧ isJsWs b = true := by
      cases rest with
      | nil => simp at hrun
      | cons a t =>
        cases hab : isJsWs a with
        | false =>
          rw [List.takeWhile_cons, if_neg (by simp [hab])] at hrun
          simp at hrun
        | true => exact ⟨a, t, rfl, hab⟩
    have hchain : List.Chain' (fun a b => ¬(isJsWs a = true ∧ isJsWs b = true))
        (b :: rest') := by
      have := (List.chain'_cons'.mp h2).2
      rw [hrest] at this
      exact this
    have hrest'_head : ∀ y, rest'.head? = some y → isJsWs y = false := by
      intro y hy
      have := (List.chain'_cons'.mp hchain).1 y hy
      cases h : isJsWs y with
      | false => rfl
      | true => exact absurd ⟨hb, h⟩ this
    have hdw : rest.dropWhile isJsWs = rest'.dropWhile isJsWs := by
      rw [hrest, List.dropWhile_cons, if_pos hb]
    rw [hdw, dropWhile_eq_self_of_head isJsWs rest' hrest'_head] at hhead
    obtain ⟨t, hrest'⟩ : ∃ t, rest' = '<' :: t := by
      cases rest' with
      | nil => simp at hhead
      | cons a t =>
        simp only [List.head?_cons, Option.some.injEq] at hhead
        exact ⟨t, by rw [hhead]⟩
    apply hg
    refine ⟨b, hb, List.IsPrefix.isInfix ⟨t, ?_⟩⟩
    rw [hc, hrest, hrest']
    rfl
  | case3 c rest hcond ih =>
    rw [stripBetweenTags, if_neg hcond]
    have h2r := (List.chain'_cons'.mp h2).2
    have hgr : ¬ HasGap rest := by
      intro hgap
      exact hg (hgap.mono ((List.suffix_cons c rest).isInfix))
    rw [ih h2r hgr]

theorem jsTrim_infix (l : List Char) : List.IsInfix (jsTrim l) l := by
  have hsuf : List.IsSuffix (l.dropWhile isJsWs) l := List.dropWhile_suffix isJsWs
  have hY : List.IsSuffix ((l.dropWhile isJsWs).reverse.dropWhile isJsWs)
      (l.dropWhile isJsWs).reverse := List.dropWhile_suffix isJsWs
  have hpre : List.IsPrefix (jsTrim l) (l.dropWhile isJsWs) := by
    rw [← List.reverse_suffix, jsTrim, List.reverse_reverse]
    exact hY
  exact List.infix_iff_prefix_suffix.mpr ⟨l.dropWhile isJsWs, hpre, hsuf⟩

theorem jsTrim_head_not_ws (l : List Char) :
    ∀ c, (jsTrim l).head? = some c → isJsWs c = false := by
  intro c hc
  have hpre : List.IsPrefix (jsTrim l) (l.dropWhile isJsWs) := by
    rw [← List.reverse_suffix, jsTrim, List.reverse_reverse]
    exact List.dropWhile_suffix isJsWs
  obtain ⟨t, ht⟩ := hpre
  have hne : jsTrim l ≠ [] := by
    intro h
    rw [h] at hc
    simp at hc
  have : (l.dropWhile isJsWs).head? = some c := by
    rw [← ht, List.head?_append_of_ne_nil _ hne, hc]
  exact head?_dropWhile_not isJsWs l c this

theorem jsTrim_getLast_not_ws (l : List Char) :
    ∀ c, (jsTrim l).getLast? = some c → isJsWs c = false := by
  intro c hc
  rw [jsTrim, List.getLast?_reverse] at hc
  exact head?_dropWhile_not isJsWs (l.dropWhile isJsWs).reverse c hc

theorem jsTrim_eq_self (l : List Char)
    (hh : ∀ c, l.head? = some c → isJsWs c = false)
    (hl : ∀ c, l.getLast? = some c → isJsWs c = false) : jsTrim l = l := by
  rw [jsTrim, dropWhile_eq_self_of_head isJsWs l hh,
    dropWhile_eq_self_of_head isJsWs l.reverse, List.reverse_reverse]
  intro c hc
  rw [List.head?_reverse] at hc
  exact hl c hc

/-- Claim C9: `normalizeChunk` (collapse whitespace runs to a single space,
strip whitespace directly between adjacent angle-bracket tags, then trim) is
idempotent: `normalizeChunk (normalizeChunk s) = normalizeChunk s` for every
string `s`. -/
theorem normalizeChunk_idempotent (s : String) :
    normalizeChunk (normalizeChunk s) = normalizeChunk s := by
  have key : ∀ l : List Char,
      normalizeChunk (String.mk (jsTrim (stripBetweenTags (collapseWs l))))
        = String.mk (jsTrim (stripBetweenTags (collapseWs l))) := by
    intro l
    have hws0 : WsSingle (collapseWs l) := collapseWsAux_wsSingle l false
    have hna0 : NoAdjWs (collapseWs l) := collapseWsAux_noAdjWs l false
    have hws1 : WsSingle (stripBetweenTags (collapseWs l)) :=
      fun c hc hw => hws0 c (mem_stripBetweenTags _ c hc) hw
    have hna1 : NoAdjWs (stripBetweenTags (collapseWs l)) :=
      stripBetweenTags_noAdjWs _ hna0
    have hng1 : ¬ HasGap (stripBetweenTags (collapseWs l)) :=
      stripBetweenTags_not_hasGap _ hws0 hna0
    have htinf := jsTrim_infix (stripBetweenTags (collapseWs l))
    have hwst : WsSingle (jsTrim (stripBetweenTags (collapseWs l))) :=
      fun c hc hw => hws1 c (htinf.sublist.mem hc) hw
    have hnat : NoAdjWs (jsTrim (stripBetweenTags (collapseWs l))) :=
      hna1.infix htinf
    have hngt : ¬ HasGap (jsTrim (stripBetweenTags (collapseWs l))) :=
      fun h => hng1 (h.mono htinf)
    show String.mk (jsTrim (stripBetweenTags (collapseWs
        (jsTrim (stripBetweenTags (collapseWs l)))))) = _
    rw [show collapseWs (jsTrim (stripBetweenTags (collapseWs l)))
          = jsTrim (stripBetweenTags (collapseWs l)) from
        (collapseWsAux_eq_self _ hwst hnat).1,
      stripBetweenTags_eq_self _ hnat hngt,
      jsTrim_eq_self _ (jsTrim_head_not_ws _) (jsTrim_getLast_not_ws _)]
  exact key s.data

/-! ## Group merge (`mergePairs`, `extension.ts` / `utils/utils.ts`)

A `Chunk` as it appears in a `SimilarityResult` (`types/types.ts`, without
the embedding, which `calculateSimilarity` does not return).  The optional
JavaScript `id` is embedded as a `Nat`, with `0` playing the role of the
falsy values (`0`/`undefined`) rejected by the guards
`pair2.chunks[0]?.id && ...`; database ids come from a `SERIAL` column and
are always positive. -/

structure Chunk where
  id : Nat
  start_line : Int
  end_line : Int
  chunk : String
  file : String
deriving DecidableEq, Repr, Inhabited

/-- A similarity group (`SimilarityResult` in `types/types.ts`). -/
structure SimilarityResult where
  similarity : ℚ
  chunks : List Chunk
deriving DecidableEq, Repr, Inhabited

/-- The ids of a chunk list (`list.chunks.map((c) => c.id)`). -/
def chunkIds (l : List Chunk) : List Nat := l.map Chunk.id

/-- One iteration of the inner loop of `mergePairs`, acting on the whole
cluster list `st` at outer index `i` and inner index `j`: if `st[j]` holds
exactly two chunks, the two sequential guards of the source run, each
re-reading the state the previous one may have mutated (`pop`/`push`, then
`shift`/`push` on the live arrays). -/
def mergeInnerBody (st : List SimilarityResult) (i j : Nat) :
    List SimilarityResult :=
  match (st.getD j default).chunks with
  | [c0, c1] =>
    let pair2 := st.getD j default
    let list := st.getD i default
    let st1 :=
      if c0.id ≠ 0 ∧ c0.id ∈ chunkIds list.chunks then
        (st.set j { pair2 with chunks := [c0] }).set i
          { list with chunks := list.chunks ++ [c1] }
      else st
    let pair2' := st1.getD j default
    let list' := st1.getD i default
    match pair2'.chunks[1]? with
    | some d1 =>
      if d1.id ≠ 0 ∧ d1.id ∈ chunkIds list'.chunks then
        (st1.set j { pair2' with chunks := pair2'.chunks.tail }).set i
          { list' with chunks := list'.chunks ++ [pair2'.chunks.headI] }
      else st1
    | none => st1
  | _ => st

theorem mergeInnerBody_length (st : List SimilarityResult) (i j : Nat) :
    (mergeInnerBody st i j).length = st.length := by
  rw [mergeInnerBody]
  split
  · dsimp only
    repeat' split
    all_goals simp
  · rfl

/-- The inner loop of `mergePairs` (`for (let j = i + 1; ...)`). -/
def mergeInnerLoop (st : List SimilarityResult) (i j : Nat) :
    List SimilarityResult :=
  if h : j < st.length then
    mergeInnerLoop (mergeInnerBody st i j) i (j + 1)
  else st
termination_by st.length - j
decreasing_by
  rw [mergeInnerBody_length]
  omega

theorem mergeInnerLoop_length (st : List SimilarityResult) (i j : Nat) :
    (mergeInnerLoop st i j).length = st.length := by
  induction st, i, j using mergeInnerLoop.induct with
  | case1 st i j h ih => rw [mergeInnerLoop, dif_pos h, ih, mergeInnerBody_length]
  | case2 st i j h => rw [mergeInnerLoop, dif_neg h]

/-- The outer loop of `mergePairs` (`for (let i = 0; ...)`), including the
`if (list.chunks.length <= 1) continue` guard. -/
def mergeOuterLoop (st : List SimilarityResult) (i : Nat) :
    List SimilarityResult :=
  if h : i < st.length then
    if (st.getD i default).chunks.length ≤ 1 then mergeOuterLoop st (i + 1)
    else mergeOuterLoop (mergeInnerLoop st i (i + 1)) (i + 1)
  else st
termination_by st.length - i
decreasing_by
  · omega
  · rw [mergeInnerLoop_length]
    omega

/-- `mergePairs` from `extension.ts` / `utils/utils.ts`.  The initial
`JSON.parse(JSON.stringify(pairs))` deep copy is the identity on values; the
heap model below (`heapMergePairs`) covers the frame aspect of that copy. -/
def mergePairs (pairs : List SimilarityResult) : List SimilarityResult :=
  (mergeOuterLoop pairs 0).filter (fun p => 1 < p.chunks.length)

/-! ### The merge pass as the specification words it (Claim C1)

`absorbStep`, `absorbAll`, `mergeRun` and `mergePairsSpec` transcribe §4.4 of
the specification: for each cluster `i` in order with more than one chunk,
scan all later clusters `j` still holding exactly two chunks; if `j`'s first
chunk's identifier appears among `i`'s chunk identifiers, move `j`'s last
chunk into `i` (after which `j` has no second chunk, so the second clause is
moot); independently, if `j`'s second chunk's identifier appears among `i`'s
chunk identifiers, move `j`'s first chunk into `i`.  Finally only clusters
with more than one chunk are kept, in their original relative order. -/

/-- One absorption of the spec: cluster `list` against a later cluster
`pair2` still holding exactly two chunks. -/
def absorbStep (list pair2 : SimilarityResult) :
    SimilarityResult × SimilarityResult :=
  match pair2.chunks with
  | [c0, c1] =>
    if c0.id ∈ chunkIds list.chunks then
      ({ list with chunks := list.chunks ++ [c1] },
       { pair2 with chunks := [c0] })
    else if c1.id ∈ chunkIds list.chunks then
      ({ list with chunks := list.chunks ++ [c0] },
       { pair2 with chunks := [c1] })
    else (list, pair2)
  | _ => (list, pair2)

/-- Scan of all later clusters by one cluster, left to right. -/
def absorbAll (list : SimilarityResult) :
    List SimilarityResult → SimilarityResult × List SimilarityResult
  | [] => (list, [])
  | p :: rest =>
    let s := absorbStep list p
    let r := absorbAll s.1 rest
    (r.1, s.2 :: r.2)

theorem absorbAll_snd_length (list : SimilarityResult)
    (l : List SimilarityResult) : (absorbAll list l).2.length = l.length := by
  induction l generalizing list with
  | nil => rfl
  | cons p rest ih => simp [absorbAll, ih]

/-- The single left-to-right pass of the spec (no fixed-point closure):
clusters with at most one chunk are skipped as merge targets but stay in
place. -/
def mergeRun : List SimilarityResult → List SimilarityResult
  | [] => []
  | l :: rest =>
    if l.chunks.length ≤ 1 then l :: mergeRun rest
    else
      let r := absorbAll l rest
      r.1 :: mergeRun r.2
termination_by l => l.length
decreasing_by
  · simp
  · simp [absorbAll_snd_length]

/-- §4.4 of the spec in full: the one-pass union followed by dropping
clusters with at most one chunk, preserving relative order. -/
def mergePairsSpec (pairs : List SimilarityResult) : List SimilarityResult :=
  (mergeRun pairs).filter (fun p => 1 < p.chunks.length)

theorem absorbStep_snd_chunks_sub (l p : SimilarityResult) :
    ∀ c ∈ (absorbStep l p).2.chunks, c ∈ p.chunks := by
  rw [absorbStep]
  split
  · rename_i c0 c1 hp
    split
    · intro c hc
      simp only [List.mem_singleton] at hc
      rw [hp, hc]; simp
    · split
      · intro c hc
        simp only [List.mem_singleton] at hc
        rw [hp, hc]; simp
      · intro c hc; exact hc
  · intro c hc; exact hc

theorem absorbAll_pos (list : SimilarityResult) (suf : List SimilarityResult)
    (h : ∀ q ∈ suf, ∀ c ∈ q.chunks, c.id ≠ 0) :
    ∀ q ∈ (absorbAll list suf).2, ∀ c ∈ q.chunks, c.id ≠ 0 := by
  induction suf generalizing list with
  | nil => simp [absorbAll]
  | cons p rest ih =>
    intro q hq c hc
    simp only [absorbAll, List.mem_cons] at hq
    rcases hq with hq | hq
    · subst hq
      exact h p (List.mem_cons_self p rest)
        c (absorbStep_snd_chunks_sub list p c hc)
    · exact ih (absorbStep list p).1
        (fun r hr => h r (List.mem_cons_of_mem p hr)) q hq c hc

theorem getD_append_len {α : Type} [Inhabited α] (pre : List α) (x : α)
    (suf : List α) : (pre ++ x :: suf).getD pre.length default = x := by
  induction pre with
  | nil => rfl
  | cons a t ih => simpa using ih

theorem set_append_len {α : Type} (pre : List α) (x y : α) (suf : List α) :
    (pre ++ x :: suf).set pre.length y = pre ++ y :: suf := by
  induction pre with
  | nil => rfl
  | cons a t ih => simp [ih]

theorem set_getD_self {α : Type} [Inhabited α] (l : List α) (i : Nat)
    (h : i < l.length) : l.set i (l.getD i default) = l := by
  apply List.ext_getElem?
  intro n
  rw [List.getElem?_set]
  split
  · rename_i hin
    subst hin
    simp [List.getD_eq_getElem?_getD, List.getElem?_eq_getElem h]
  · rfl

theorem absorbStep_pair (l p : SimilarityResult) (c0 c1 : Chunk)
    (hpc : p.chunks = [c0, c1]) :
    absorbStep l p =
      if c0.id ∈ chunkIds l.chunks then
        ({ l with chunks := l.chunks ++ [c1] }, { p with chunks := [c0] })
      else if c1.id ∈ chunkIds l.chunks then
        ({ l with chunks := l.chunks ++ [c0] }, { p with chunks := [c1] })
      else (l, p) := by
  unfold absorbStep
  split
  · rename_i c0' c1' heq
    have h2 : ([c0, c1] : List Chunk) = [c0', c1'] := hpc.symm.trans heq
    injection h2 with h3 h4
    injection h4 with h5 h6
    subst h3; subst h5
    rfl
  · rename_i h
    exact absurd hpc (h c0 c1)

theorem absorbStep_other (l p : SimilarityResult)
    (h : ∀ c0 c1 : Chunk, p.chunks ≠ [c0, c1]) : absorbStep l p = (l, p) := by
  unfold absorbStep
  split
  · rename_i c0 c1 heq
    exact absurd heq (h c0 c1)
  · rfl

/-- `mergeInnerBody` at distinct in-range positions is exactly one
`absorbStep` between the clusters at those positions, provided the chunks of
the later cluster have truthy (nonzero) ids. -/
theorem mergeInnerBody_spec (st : List SimilarityResult) (i j : Nat)
    (hij : i ≠ j) (hi : i < st.length) (hj : j < st.length)
    (hpos : ∀ c ∈ (st.getD j default).chunks, c.id ≠ 0) :
    mergeInnerBody st i j =
      (st.set i (absorbStep (st.getD i default) (st.getD j default)).1).set j
        (absorbStep (st.getD i default) (st.getD j default)).2 := by
  unfold mergeInnerBody
  split
  · rename_i c0 c1 heq
    rw [absorbStep_pair (st.getD i default) (st.getD j default) c0 c1 heq]
    have hc0 : c0.id ≠ 0 := hpos c0 (by rw [heq]; simp)
    have hc1 : c1.id ≠ 0 := hpos c1 (by rw [heq]; simp)
    dsimp only
    by_cases hm : c0.id ∈ chunkIds (st.getD i default).chunks
    · have hcond : c0.id ≠ 0 ∧ c0.id ∈ chunkIds (st.getD i default).chunks :=
        ⟨hc0, hm⟩
      rw [if_pos hcond, if_pos hm]
      have h1 : (((st.set j { st.getD j default with chunks := [c0] }).set i
            { st.getD i default with
                chunks := (st.getD i default).chunks ++ [c1] }).getD
          j default) = { st.getD j default with chunks := [c0] } := by
        rw [List.getD_eq_getElem?_getD, List.getElem?_set_ne hij,
          List.getElem?_set_self hj]
        rfl
      rw [h1]
      have h2 : ({ st.getD j default with chunks := [c0] } :
          SimilarityResult).chunks[1]? = none := rfl
      split
      · rename_i d1 heq2
        rw [h2] at heq2
        simp at heq2
      · exact List.set_comm _ _ st hij.symm
    · have hncond : ¬(c0.id ≠ 0 ∧ c0.id ∈ chunkIds (st.getD i default).chunks) :=
        fun hh => hm hh.2
      rw [if_neg hncond, if_neg hm]
      have h2 : (st.getD j default).chunks[1]? = some c1 := by rw [heq]; rfl
      split
      · rename_i d1 heq2
        rw [h2] at heq2
        injection heq2 with hd1
        subst hd1
        by_cases hm2 : c1.id ∈ chunkIds (st.getD i default).chunks
        · have hcond2 : c1.id ≠ 0 ∧ c1.id ∈ chunkIds (st.getD i default).chunks :=
            ⟨hc1, hm2⟩
          rw [if_pos hcond2, if_pos hm2]
          have h3 : (st.getD j default).chunks.tail = [c1] := by rw [heq]; rfl
          have h4 : (st.getD j default).chunks.headI = c0 := by rw [heq]; rfl
          rw [h3, h4]
          exact List.set_comm _ _ st hij.symm
        · have hncond2 :
              ¬(c1.id ≠ 0 ∧ c1.id ∈ chunkIds (st.getD i default).chunks) :=
            fun hh => hm2 hh.2
          rw [if_neg hncond2, if_neg hm2]
          rw [set_getD_self st i hi, set_getD_self st j hj]
      · rename_i heq2
        rw [h2] at heq2
        simp at heq2
  · rename_i h
    rw [absorbStep_other (st.getD i default) (st.getD j default)
      (fun c0 c1 hcc => h c0 c1 hcc)]
    rw [set_getD_self st i hi, set_getD_self st j hj]

theorem mergeInnerLoop_bridge :
    ∀ (suf pre mid : List SimilarityResult) (l : SimilarityResult),
      (∀ q ∈ suf, ∀ c ∈ q.chunks, c.id ≠ 0) →
      mergeInnerLoop (pre ++ l :: (mid ++ suf)) pre.length
          (pre ++ l :: mid).length
        = pre ++ (absorbAll l suf).1 :: (mid ++ (absorbAll l suf).2) := by
  intro suf
  induction suf with
  | nil =>
    intro pre mid l _
    rw [mergeInnerLoop, dif_neg (by simp)]
    simp [absorbAll]
  | cons p rest ih =>
    intro pre mid l h
    have hlt : (pre ++ l :: mid).length
        < (pre ++ l :: (mid ++ p :: rest)).length := by simp
    rw [mergeInnerLoop, dif_pos hlt]
    have hij : pre.length ≠ (pre ++ l :: mid).length := by simp
    have hi : pre.length < (pre ++ l :: (mid ++ p :: rest)).length := by simp
    have hgi : (pre ++ l :: (mid ++ p :: rest)).getD pre.length default = l :=
      getD_append_len pre l _
    have hgj : (pre ++ l :: (mid ++ p :: rest)).getD
        (pre ++ l :: mid).length default = p := by
      rw [show pre ++ l :: (mid ++ p :: rest) = (pre ++ l :: mid) ++ p :: rest
        by simp]
      exact getD_append_len _ p rest
    have hpos : ∀ c ∈ ((pre ++ l :: (mid ++ p :: rest)).getD
        (pre ++ l :: mid).length default).chunks, c.id ≠ 0 := by
      rw [hgj]
      exact h p (List.mem_cons_self p rest)
    rw [mergeInnerBody_spec _ _ _ hij hi hlt hpos, hgi, hgj]
    have hset : (((pre ++ l :: (mid ++ p :: rest)).set pre.length
          (absorbStep l p).1).set (pre ++ l :: mid).length (absorbStep l p).2)
        = pre ++ (absorbStep l p).1 :: (mid ++ (absorbStep l p).2 :: rest) := by
      rw [set_append_len pre l (absorbStep l p).1 _]
      rw [show pre ++ (absorbStep l p).1 :: (mid ++ p :: rest)
          = (pre ++ (absorbStep l p).1 :: mid) ++ p :: rest by simp]
      rw [show (pre ++ l :: mid).length
          = (pre ++ (absorbStep l p).1 :: mid).length by simp]
      rw [set_append_len _ p _]
      simp
    rw [hset]
    rw [show (pre ++ l :: mid).length + 1
        = (pre ++ (absorbStep l p).1 :: (mid ++ [(absorbStep l p).2])).length
      by simp only [List.length_append, List.length_cons, List.length_nil]; omega]
    rw [show pre ++ (absorbStep l p).1 :: (mid ++ (absorbStep l p).2 :: rest)
        = pre ++ (absorbStep l p).1 :: ((mid ++ [(absorbStep l p).2]) ++ rest)
      by simp]
    rw [ih pre (mid ++ [(absorbStep l p).2]) (absorbStep l p).1
      (fun q hq => h q (List.mem_cons_of_mem p hq))]
    simp [absorbAll]

theorem mergeOuterLoop_bridge :
    ∀ (suf pre : List SimilarityResult),
      (∀ q ∈ suf, ∀ c ∈ q.chunks, c.id ≠ 0) →
      mergeOuterLoop (pre ++ suf) pre.length = pre ++ mergeRun suf := by
  intro suf
  induction suf using mergeRun.induct with
  | case1 =>
    intro pre _
    rw [mergeOuterLoop, dif_neg (by simp)]
    simp [mergeRun]
  | case2 l rest hlen ih =>
    intro pre h
    have hlt : pre.length < (pre ++ l :: rest).length := by simp
    rw [mergeOuterLoop, dif_pos hlt,
      show (pre ++ l :: rest).getD pre.length default = l from
        getD_append_len pre l rest,
      if_pos hlen]
    rw [show pre ++ l :: rest = (pre ++ [l]) ++ rest by simp,
      show pre.length + 1 = (pre ++ [l]).length by simp]
    rw [ih (pre ++ [l]) (fun q hq => h q (List.mem_cons_of_mem l hq))]
    rw [mergeRun, if_pos hlen]
    simp
  | case3 l rest hlen r ihr =>
    intro pre h
    have hr : r = absorbAll l rest := rfl
    rw [hr] at ihr
    have hlt : pre.length < (pre ++ l :: rest).length := by simp
    rw [mergeOuterLoop, dif_pos hlt,
      show (pre ++ l :: rest).getD pre.length default = l from
        getD_append_len pre l rest,
      if_neg hlen]
    rw [show pre ++ l :: rest = pre ++ l :: (([] : List SimilarityResult) ++ rest)
        by simp,
      show pre.length + 1 = (pre ++ l :: ([] : List SimilarityResult)).length
        by simp]
    rw [mergeInnerLoop_bridge rest pre [] l
      (fun q hq => h q (List.mem_cons_of_mem l hq))]
    rw [show pre ++ (absorbAll l rest).1 :: (([] : List SimilarityResult)
          ++ (absorbAll l rest).2)
        = (pre ++ [(absorbAll l rest).1]) ++ (absorbAll l rest).2 by simp]
    rw [show (pre ++ l :: ([] : List SimilarityResult)).length
        = (pre ++ [(absorbAll l rest).1]).length by simp]
    rw [ihr (pre ++ [(absorbAll l rest).1])
      (absorbAll_pos l rest (fun q hq => h q (List.mem_cons_of_mem l hq)))]
    rw [mergeRun, if_neg hlen]
    simp

/-- Claim C1: on a list of pairwise `SimilarityResult`s — each holding
exactly two chunks, with truthy (nonzero) chunk ids as produced by the
`SERIAL` id column — `mergePairs` performs exactly the single left-to-right
one-pass union described by the specification (`mergePairsSpec`): for each
cluster `i` in order with more than one chunk, every later cluster `j` still
holding exactly two chunks donates its last chunk if its first chunk's id
lies in cluster `i` (after which `j` has no second chunk), and independently
donates its first chunk if its second chunk's id lies in cluster `i`; the
output keeps only clusters with more than one chunk in their original
relative order, and a cluster that shrank to one chunk is never again a
merge target, so no fixed-point closure happens. -/
theorem mergePairs_correct (pairs : List SimilarityResult)
    (_hlen : ∀ p ∈ pairs, p.chunks.length = 2)
    (hpos : ∀ p ∈ pairs, ∀ c ∈ p.chunks, c.id ≠ 0) :
    mergePairs pairs = mergePairsSpec pairs := by
  have h := mergeOuterLoop_bridge pairs [] hpos
  rw [mergePairs, mergePairsSpec]
  rw [show mergeOuterLoop pairs 0
      = mergeOuterLoop (([] : List SimilarityResult) ++ pairs)
          ([] : List SimilarityResult).length from rfl, h]
  rfl

/-- Witness for C1: the chain `(A,B), (B,C)` with ids `1,2,3` satisfies the
hypotheses and merges per the one-pass rule. -/
theorem mergePairs_correct_witness :
    (∀ p ∈ [SimilarityResult.mk 1 [Chunk.mk 1 1 5 "a" "f", Chunk.mk 2 1 5 "b" "g"],
            SimilarityResult.mk 0 [Chunk.mk 2 1 5 "b" "g", Chunk.mk 3 7 11 "c" "g"]],
        p.chunks.length = 2)
      ∧ mergePairs
            [SimilarityResult.mk 1 [Chunk.mk 1 1 5 "a" "f", Chunk.mk 2 1 5 "b" "g"],
             SimilarityResult.mk 0 [Chunk.mk 2 1 5 "b" "g", Chunk.mk 3 7 11 "c" "g"]]
          = mergePairsSpec
            [SimilarityResult.mk 1 [Chunk.mk 1 1 5 "a" "f", Chunk.mk 2 1 5 "b" "g"],
             SimilarityResult.mk 0 [Chunk.mk 2 1 5 "b" "g", Chunk.mk 3 7 11 "c" "g"]] :=
  ⟨by decide, mergePairs_correct _ (by decide) (by decide)⟩

/-! ### Heap model of `mergePairs` (Claim C10)

In JavaScript the chunk arrays of the `SimilarityResult` objects are mutable
heap cells (`pop`, `shift`, `push` mutate in place).  `mergePairs` first
deep-copies its input (`JSON.parse(JSON.stringify(pairs))`) and then mutates
only the copy.  The heap model makes this observable: a `Store` maps cell
references to chunk lists, an `SRRef` is a `SimilarityResult` whose chunk
array is a reference, and `heapMergePairs` allocates fresh cells for the
clone before running the two loops on them.  The frame theorem says the
cells of the input are untouched. -/

/-- A `SimilarityResult` whose chunk array lives in the heap. -/
structure SRRef where
  chunksRef : Nat
  similarity : ℚ
deriving Repr, Inhabited

/-- The mutable heap of chunk arrays plus an allocation counter. -/
structure Store where
  heap : Nat → List Chunk
  next : Nat

/-- Write a chunk array to a heap cell. -/
def writeChunks (st : Store) (ref : Nat) (cs : List Chunk) : Store :=
  ⟨fun n => if n = ref then cs else st.heap n, st.next⟩

/-- Allocate a fresh heap cell holding `cs`. -/
def allocCell (st : Store) (cs : List Chunk) : Store :=
  ⟨fun n => if n = st.next then cs else st.heap n, st.next + 1⟩

theorem allocCell_next (st : Store) (cs : List Chunk) :
    (allocCell st cs).next = st.next + 1 := rfl

theorem allocCell_heap_lt (st : Store) (cs : List Chunk) (n : Nat)
    (h : n < st.next) : (allocCell st cs).heap n = st.heap n := by
  show (if n = st.next then cs else st.heap n) = st.heap n
  rw [if_neg (by omega)]

/-- `JSON.parse(JSON.stringify(pairs))`: allocate a fresh cell per result,
initialized with a copy of the original contents. -/
def cloneAlloc : Store → List SRRef → Store × List SRRef
  | st, [] => (st, [])
  | st, r :: rs =>
    let res := cloneAlloc (allocCell st (st.heap r.chunksRef)) rs
    (res.1, ⟨st.next, r.similarity⟩ :: res.2)

/-- The body of the inner loop of `mergePairs` over the heap: mirrors
`mergeInnerBody` but reads and writes the chunk arrays through their
references. -/
def heapInnerBody (st : Store) (refs : List SRRef) (i j : Nat) : Store :=
  let rj := (refs.getD j default).chunksRef
  let ri := (refs.getD i default).chunksRef
  match st.heap rj with
  | [c0, c1] =>
    let st1 :=
      if c0.id ≠ 0 ∧ c0.id ∈ chunkIds (st.heap ri) then
        writeChunks (writeChunks st rj [c0]) ri (st.heap ri ++ [c1])
      else st
    match (st1.heap rj)[1]? with
    | some d1 =>
      if d1.id ≠ 0 ∧ d1.id ∈ chunkIds (st1.heap ri) then
        writeChunks (writeChunks st1 rj (st1.heap rj).tail) ri
          (st1.heap ri ++ [(st1.heap rj).headI])
      else st1
    | none => st1
  | _ => st

/-- The inner loop of `mergePairs` over the heap. -/
def heapInnerLoop (st : Store) (refs : List SRRef) (i j : Nat) : Store :=
  if j < refs.length then heapInnerLoop (heapInnerBody st refs i j) refs i (j + 1)
  else st
termination_by refs.length - j

/-- The outer loop of `mergePairs` over the heap. -/
def heapOuterLoop (st : Store) (refs : List SRRef) (i : Nat) : Store :=
  if i < refs.length then
    if (st.heap (refs.getD i default).chunksRef).length ≤ 1 then
      heapOuterLoop st refs (i + 1)
    else heapOuterLoop (heapInnerLoop st refs i (i + 1)) refs (i + 1)
  else st
termination_by refs.length - i

/-- `mergePairs` over the heap: clone, run the loops on the clone, filter
the clone by surviving length.  Returns the final store plus the returned
(clone) references. -/
def heapMergePairs (st : Store) (pairs : List SRRef) : Store × List SRRef :=
  let alloc := cloneAlloc st pairs
  let st2 := heapOuterLoop alloc.1 alloc.2 0
  (st2, alloc.2.filter (fun r => 1 < (st2.heap r.chunksRef).length))

theorem cloneAlloc_next_le (st : Store) (l : List SRRef) :
    st.next ≤ (cloneAlloc st l).1.next := by
  induction l generalizing st with
  | nil => exact Nat.le_refl _
  | cons r rs ih =>
    have h := ih (allocCell st (st.heap r.chunksRef))
    rw [allocCell_next] at h
    simp only [cloneAlloc]
    omega

theorem cloneAlloc_heap_lt (st : Store) (l : List SRRef) (n : Nat)
    (h : n < st.next) : (cloneAlloc st l).1.heap n = st.heap n := by
  induction l generalizing st with
  | nil => rfl
  | cons r rs ih =>
    have h2 := ih (allocCell st (st.heap r.chunksRef))
      (by rw [allocCell_next]; omega)
    simp only [cloneAlloc]
    rw [h2, allocCell_heap_lt st _ n h]

theorem cloneAlloc_refs_ge (st : Store) (l : List SRRef) :
    ∀ r ∈ (cloneAlloc st l).2, st.next ≤ r.chunksRef := by
  induction l generalizing st with
  | nil => simp [cloneAlloc]
  | cons r rs ih =>
    intro q hq
    simp only [cloneAlloc, List.mem_cons] at hq
    rcases hq with hq | hq
    · rw [hq]
    · have h2 := ih (allocCell st (st.heap r.chunksRef)) q hq
      rw [allocCell_next] at h2
      omega

theorem writeChunks_heap_ne (st : Store) (ref : Nat) (cs : List Chunk)
    (n : Nat) (h : n ≠ ref) : (writeChunks st ref cs).heap n = st.heap n := by
  simp [writeChunks, h]

theorem heapInnerBody_frame (st : Store) (refs : List SRRef) (i j : Nat)
    (base : Nat) (hrefs : ∀ r ∈ refs, base ≤ r.chunksRef)
    (hi : i < refs.length) (hj : j < refs.length) (n : Nat) (hn : n < base) :
    (heapInnerBody st refs i j).heap n = st.heap n := by
  have hri : base ≤ (refs.getD i default).chunksRef := by
    apply hrefs
    rw [List.getD_eq_getElem?_getD, List.getElem?_eq_getElem hi]
    exact List.getElem_mem hi
  have hrj : base ≤ (refs.getD j default).chunksRef := by
    apply hrefs
    rw [List.getD_eq_getElem?_getD, List.getElem?_eq_getElem hj]
    exact List.getElem_mem hj
  have hni : n ≠ (refs.getD i default).chunksRef := by omega
  have hnj : n ≠ (refs.getD j default).chunksRef := by omega
  simp only [heapInnerBody]
  split
  · repeat' split
    all_goals simp_all [writeChunks]
  · rfl

theorem heapInnerLoop_frame (refs : List SRRef) (i : Nat) (base : Nat)
    (hrefs : ∀ r ∈ refs, base ≤ r.chunksRef) (hi : i < refs.length)
    (n : Nat) (hn : n < base) :
    ∀ (k : Nat) (st : Store) (j : Nat), refs.length ≤ j + k →
      (heapInnerLoop st refs i j).heap n = st.heap n := by
  intro k
  induction k with
  | zero =>
    intro st j hk
    rw [heapInnerLoop, if_neg (by omega)]
  | succ k ih =>
    intro st j hk
    by_cases hj : j < refs.length
    · rw [heapInnerLoop, if_pos hj,
        ih (heapInnerBody st refs i j) (j + 1) (by omega)]
      exact heapInnerBody_frame st refs i j base hrefs hi hj n hn
    · rw [heapInnerLoop, if_neg hj]

theorem heapOuterLoop_frame (refs : List SRRef) (base : Nat)
    (hrefs : ∀ r ∈ refs, base ≤ r.chunksRef) (n : Nat) (hn : n < base) :
    ∀ (k : Nat) (st : Store) (i : Nat), refs.length ≤ i + k →
      (heapOuterLoop st refs i).heap n = st.heap n := by
  intro k
  induction k with
  | zero =>
    intro st i hk
    rw [heapOuterLoop, if_neg (by omega)]
  | succ k ih =>
    intro st i hk
    by_cases hi : i < refs.length
    · rw [heapOuterLoop, if_pos hi]
      by_cases hg : (st.heap (refs.getD i default).chunksRef).length ≤ 1
      · rw [if_pos hg, ih st (i + 1) (by omega)]
      · rw [if_neg hg, ih (heapInnerLoop st refs i (i + 1)) (i + 1) (by omega)]
        exact heapInnerLoop_frame refs i base hrefs hi n hn refs.length st
          (i + 1) (by omega)
    · rw [heapOuterLoop, if_neg hi]

/-- Claim C10: `mergePairs` never mutates its input.  In the heap model the
function first deep-copies the input (`cloneAlloc`, the
`JSON.parse(JSON.stringify(...))` of the source) and all loop writes target
the fresh cells of the copy, so every heap cell referenced by the input list
holds the same chunk array after the call as before it; the ranked pair
list can be reused after merging. -/
theorem mergePairs_no_mutation (st : Store) (pairs : List SRRef)
    (hvalid : ∀ r ∈ pairs, r.chunksRef < st.next) :
    ∀ r ∈ pairs,
      (heapMergePairs st pairs).1.heap r.chunksRef = st.heap r.chunksRef := by
  intro r hr
  have h1 : r.chunksRef < st.next := hvalid r hr
  show (heapOuterLoop (cloneAlloc st pairs).1 (cloneAlloc st pairs).2 0).heap
      r.chunksRef = st.heap r.chunksRef
  rw [heapOuterLoop_frame (cloneAlloc st pairs).2 st.next
      (cloneAlloc_refs_ge st pairs) r.chunksRef h1
      (cloneAlloc st pairs).2.length (cloneAlloc st pairs).1 0 (by omega)]
  exact cloneAlloc_heap_lt st pairs r.chunksRef h1

/-- Witness for C10: a one-element input in a store with one allocated cell
is unchanged by `heapMergePairs`. -/
theorem mergePairs_no_mutation_witness :
    (∀ r ∈ [SRRef.mk 0 1], r.chunksRef < (Store.mk (fun _ => []) 1).next)
      ∧ (heapMergePairs (Store.mk (fun _ => []) 1) [SRRef.mk 0 1]).1.heap 0
          = (Store.mk (fun _ => []) 1).heap 0 :=
  ⟨by decide,
   mergePairs_no_mutation (Store.mk (fun _ => []) 1) [SRRef.mk 0 1] (by decide)
     (SRRef.mk 0 1) (List.mem_singleton.mpr rfl)⟩

/-! ## Index store and the transactional replace-file path (Claims C2, C3)

The store (`pglite/pglite.ts`) is embedded as a relational state: a `files`
table and a `code_chunks` table with a `SERIAL` id counter.  The embedding
provider (`model/model.ts`) is an abstract parameter
`embed : List String → Option (List (List ℚ))` (`none` = the provider call
throws).  The file system (`fs.statSync` in `getFileModifiedDate`) is an
abstract parameter `mtime : String → Option Int` (`none` = `statSync`
throws, so `getFileModifiedDate` returns `null`). -/

/-- A `files` row (`File` in `types/types.ts`); `modified_at` as an integer
timestamp. -/
structure File where
  filepath : String
  modified_at : Int
deriving DecidableEq, Repr

/-- A `code_chunks` row. -/
structure ChunkRow where
  id : Nat
  start_line : Int
  end_line : Int
  chunk : String
  file : String
  workspace : String
  embedding : List ℚ
deriving DecidableEq, Repr

/-- The persisted state of the store, with the `SERIAL` counter for
`code_chunks.id`. -/
structure DBState where
  files : List File
  chunks : List ChunkRow
  nextId : Nat
deriving DecidableEq, Repr

/-- A chunk with its embedding before insertion (`Chunk` in
`types/types.ts` as produced by `generateEmbeddings`). -/
structure ChunkData where
  start_line : Int
  end_line : Int
  chunk : String
  file : String
  embedding : List ℚ
deriving DecidableEq, Repr

/-- `deleteEmbeddings` from `pglite/pglite.ts`:
`DELETE FROM code_chunks WHERE file = $1`. -/
def deleteEmbeddings (st : DBState) (file : String) : DBState :=
  { st with chunks := st.chunks.filter (fun c => c.file ≠ file) }

/-- `upsertFile` from `pglite/pglite.ts`: insert the file row or update its
`modified_at` on conflict. -/
def upsertFile (st : DBState) (f : File) : DBState :=
  if st.files.any (fun g => g.filepath = f.filepath) then
    { st with files := st.files.map (fun g =>
        if g.filepath = f.filepath then { g with modified_at := f.modified_at }
        else g) }
  else { st with files := st.files ++ [f] }

/-- `insertEmbeddings` from `pglite/pglite.ts`: append one row per vector,
assigning consecutive `SERIAL` ids.  A vector whose dimension is not the
declared `vector(384)` makes the `INSERT` fail (`none`), as does the
`undefined` embedding produced when the provider returned fewer vectors than
chunks (that case is already `none` in `generateEmbeddings`). -/
def insertEmbeddings (st : DBState) (vectors : List ChunkData)
    (workspace : String) : Option DBState :=
  if vectors.all (fun v => v.embedding.length = 384) then
    some { st with
      chunks := st.chunks ++ vectors.enum.map (fun kv =>
        ⟨st.nextId + kv.1, kv.2.start_line, kv.2.end_line, kv.2.chunk,
         kv.2.file, workspace, kv.2.embedding⟩),
      nextId := st.nextId + vectors.length }
  else none

/-- `generateEmbeddings` from `model/model.ts`: call the provider on all
chunks, then pair chunk `index` with `start_line = index + 1` and
`end_line = start_line + chunkSize - 1`.  A provider failure propagates
(`none`); a batch-size mismatch leaves `embeddings[index]` undefined and
poisons the insert, modelled as `none` here. -/
def generateEmbeddings (embed : List String → Option (List (List ℚ)))
    (chunks : List String) (chunkSize : Nat) (file : String) :
    Option (List ChunkData) :=
  match embed chunks with
  | none => none
  | some es =>
    if es.length = chunks.length then
      some ((chunks.zip es).enum.map (fun kv =>
        ⟨(kv.1 : Int) + 1, (kv.1 : Int) + chunkSize, kv.2.1, file, kv.2.2⟩))
    else none

/-- Modelled from the spec: the Index Store is an external collaborator
offering transactions (§4.2, §6 of the spec; `db.transaction` of the
storage library).  The body runs against the current state; if it completes
the new state commits, and if any step fails the state rolls back unchanged
and `analyzeCodeSimilarity`'s `catch` reports failure. -/
def runTransaction (st : DBState) (body : DBState → Option DBState) :
    Bool × DBState :=
  match body st with
  | some st' => (true, st')
  | none => (false, st)

/-- `analyzeCodeSimilarity` from `extension.ts`: chunk the code, then in one
transaction delete the file's chunks, upsert the file row, generate the
embeddings and insert the new chunks; `true` on commit, `false` from the
`catch` on any failure. -/
def analyzeCodeSimilarity (embed : List String → Option (List (List ℚ)))
    (st : DBState) (code : String) (file : File) (workspace : String) :
    Bool × DBState :=
  let chunkSize := 5
  let chunks := splitCodeIntoChunks code chunkSize
  runTransaction st (fun tx =>
    let tx1 := deleteEmbeddings tx file.filepath
    let tx2 := upsertFile tx1 file
    match generateEmbeddings embed chunks chunkSize file.filepath with
    | none => none
    | some vectors => insertEmbeddings tx2 vectors workspace)

/-- Claim C2: `analyzeCodeSimilarity` is atomic.  The delete, the file
upsert and the insert run in one transaction together with the embedding
call, so if any step fails — the embedding provider (`hfail` left) or the
chunk insert (`hfail` right) — the persisted state after the call equals
the state before it (same chunk rows, same file timestamp) and the failure
is surfaced as a `false` return. -/
theorem analyzeCodeSimilarity_atomic
    (embed : List String → Option (List (List ℚ))) (st : DBState)
    (code : String) (file : File) (workspace : String)
    (hfail : generateEmbeddings embed (splitCodeIntoChunks code 5) 5
          file.filepath = none
      ∨ ∀ vectors, generateEmbeddings embed (splitCodeIntoChunks code 5) 5
            file.filepath = some vectors →
          insertEmbeddings (upsertFile (deleteEmbeddings st file.filepath) file)
            vectors workspace = none) :
    analyzeCodeSimilarity embed st code file workspace = (false, st) := by
  rw [analyzeCodeSimilarity]
  dsimp only
  rcases hfail with hfail | hfail
  · rw [runTransaction, hfail]
  · rw [runTransaction]
    cases hgen : generateEmbeddings embed (splitCodeIntoChunks code 5) 5
        file.filepath with
    | none => rfl
    | some vectors =>
      dsimp only
      rw [hfail vectors hgen]

/-- Witness for C2: a provider that always throws leaves the store
untouched and returns `false`. -/
theorem analyzeCodeSimilarity_atomic_witness :
    (generateEmbeddings (fun _ => none) (splitCodeIntoChunks "a\nb\nc\nd\ne" 5)
          5 "f.ts" = none
        ∨ ∀ vectors, generateEmbeddings (fun _ => none)
              (splitCodeIntoChunks "a\nb\nc\nd\ne" 5) 5 "f.ts" = some vectors →
            insertEmbeddings (upsertFile (deleteEmbeddings (DBState.mk [] [] 1)
              "f.ts") (File.mk "f.ts" 7)) vectors "ws" = none)
      ∧ analyzeCodeSimilarity (fun _ => none) (DBState.mk [] [] 1)
          "a\nb\nc\nd\ne" (File.mk "f.ts" 7) "ws" = (false, DBState.mk [] [] 1) :=
  ⟨Or.inl rfl,
   analyzeCodeSimilarity_atomic (fun _ => none) (DBState.mk [] [] 1)
     "a\nb\nc\nd\ne" (File.mk "f.ts" 7) "ws" (Or.inl rfl)⟩

/-- `isFileCached` from `extension.ts` / `utils/utils.ts`:
`filesDb.find((f) => f.filepath === filepath)`. -/
def isFileCached (filepath : String) (filesDb : List File) : Option File :=
  filesDb.find? (fun f => f.filepath = filepath)

/-- `isModified` from `extension.ts`: read the actual modification time via
`getFileModifiedDate` (the abstract `mtime`); if it cannot be read, show an
error message and return `undefined`; return `true` when the actual time is
strictly greater than the cached one, and fall through to `undefined`
otherwise.  First component: the returned value (`none` = `undefined`);
second component: whether the error message was shown. -/
def isModified (mtime : String → Option Int) (f : File) : Option Bool × Bool :=
  match mtime f.filepath with
  | none => (none, true)
  | some actual =>
    if f.modified_at < actual then (some true, false) else (none, false)

/-- The observable outcome of `analyzeFile`. -/
structure AnalyzeOutcome where
  analyzed : Bool
  errorReported : Bool
  state : DBState
deriving DecidableEq, Repr

/-- `analyzeFile` from `extension.ts`: analyze iff there is no cached `File`
record or `isModified` returns a truthy value; on analysis the file record
carries `getFileModifiedDate(filepath) || new Date(0)` and
`analyzeCodeSimilarity` runs (chunk, embed, replace-file).  `analyzed`
records whether `analyzeCodeSimilarity` (and hence the embedding provider)
was invoked. -/
def analyzeFile (mtime : String → Option Int) (filesDb : List File)
    (embed : List String → Option (List (List ℚ))) (st : DBState)
    (code filepath workspace : String) : AnalyzeOutcome :=
  match isFileCached filepath filesDb with
  | none =>
    let r := analyzeCodeSimilarity embed st code
      ⟨filepath, (mtime filepath).getD 0⟩ workspace
    ⟨true, false, r.2⟩
  | some f =>
    let m := isModified mtime f
    if m.1 = some true then
      let r := analyzeCodeSimilarity embed st code
        ⟨filepath, (mtime filepath).getD 0⟩ workspace
      ⟨true, m.2, r.2⟩
    else ⟨false, m.2, st⟩

/-- Claim C3: with a cached `File` record whose `modified_at` equals the
actual on-disk time, `analyzeFile` skips reanalysis — for every embedding
provider the outcome is the constant `⟨false, false, st⟩`, so the provider
is never invoked and the store is untouched; with a strictly newer actual
time or no record at all, reanalysis is triggered; and when the actual time
cannot be read for a cached file, the error is reported and the file is
skipped rather than crashing the run. -/
theorem analyzeFile_spec (mtime : String → Option Int) (filesDb : List File)
    (embed : List String → Option (List (List ℚ))) (st : DBState)
    (code filepath workspace : String) :
    (∀ f, isFileCached filepath filesDb = some f →
        mtime filepath = some f.modified_at →
        analyzeFile mtime filesDb embed st code filepath workspace
          = ⟨false, false, st⟩)
      ∧ ((isFileCached filepath filesDb = none
            ∨ ∃ f t, isFileCached filepath filesDb = some f
                ∧ mtime filepath = some t ∧ f.modified_at < t) →
          (analyzeFile mtime filesDb embed st code filepath workspace).analyzed
            = true)
      ∧ (∀ f, isFileCached filepath filesDb = some f → mtime filepath = none →
          analyzeFile mtime filesDb embed st code filepath workspace
            = ⟨false, true, st⟩) := by
  refine ⟨?_, ?_, ?_⟩
  · intro f hf hm
    have hmf : mtime f.filepath = some f.modified_at := by
      have := List.find?_some hf
      simp only [decide_eq_true_eq] at this
      rw [this, hm]
    simp only [analyzeFile, hf, isModified, hmf]
    rw [if_neg (lt_irrefl f.modified_at)]
    simp
  · intro h
    rcases h with h | ⟨f, t, hf, hm, hlt⟩
    · simp [analyzeFile, h]
    · have hmf : mtime f.filepath = some t := by
        have := List.find?_some hf
        simp only [decide_eq_true_eq] at this
        rw [this, hm]
      simp [analyzeFile, hf, isModified, hmf, if_pos hlt]
  · intro f hf hm
    have hmf : mtime f.filepath = none := by
      have := List.find?_some hf
      simp only [decide_eq_true_eq] at this
      rw [this, hm]
    simp [analyzeFile, hf, isModified, hmf]

/-- Witness for C3: a cached record with timestamp `5` and an on-disk time
of `5` is skipped with no provider call and no error. -/
theorem analyzeFile_spec_witness :
    isFileCached "a.ts" [File.mk "a.ts" 5] = some (File.mk "a.ts" 5)
      ∧ (fun _ => some (5 : Int)) "a.ts" = some (File.mk "a.ts" 5).modified_at
      ∧ analyzeFile (fun _ => some (5 : Int)) [File.mk "a.ts" 5]
          (fun _ => none) (DBState.mk [] [] 1) "" "a.ts" "ws"
        = ⟨false, false, DBState.mk [] [] 1⟩ :=
  ⟨rfl, rfl,
   (analyzeFile_spec (fun _ => some (5 : Int)) [File.mk "a.ts" 5]
       (fun _ => none) (DBState.mk [] [] 1) "" "a.ts" "ws").1
     (File.mk "a.ts" 5) rfl rfl⟩

/-! ## Similarity search (`calculateSimilarity`, `pglite/pglite.ts`;
Claims C4, C6, C7, C8)

The SQL query is embedded stage by stage over the `code_chunks` rows.  The
pgvector cosine-distance operator `<=>` is an abstract parameter
`dist : List ℚ → List ℚ → ℚ`; `LEAST`/`GREATEST` on `TEXT` are modelled by
byte-order (codepoint-lexicographic) comparison; integer division `/ 5` is
PostgreSQL's truncating division (`Int.tdiv`).  The unordered `LIMIT` of
`potential_pairs` is modelled as taking the first 100000 pairs of the
nested-loop enumeration; `ROW_NUMBER ... ORDER BY similarity_raw DESC`
keeps, per partition, the first listed row of maximal similarity (one
deterministic refinement of the unspecified SQL tie order). -/

/-- Codepoint-lexicographic comparison of character lists. -/
def charListLe : List Char → List Char → Bool
  | [], _ => true
  | _ :: _, [] => false
  | a :: as, b :: bs =>
    if a < b then true else if b < a then false else charListLe as bs

/-- `LEAST` on `TEXT` under byte-order collation. -/
def leastStr (x y : String) : String :=
  if charListLe x.data y.data then x else y

/-- `GREATEST` on `TEXT` under byte-order collation. -/
def greatestStr (x y : String) : String :=
  if charListLe x.data y.data then y else x

/-- `LEAST` on integers. -/
def leastInt (x y : Int) : Int := if x ≤ y then x else y

/-- The coarse admission filter of the candidate enumeration:
`(a.embedding <=> b.embedding) < 0.20`. -/
def coarseFilter (d : ℚ) : Bool := decide (d < 0.20)

/-- The fine admission threshold of the exact scoring:
`similarity_raw > 0.80`. -/
def fineFilter (s : ℚ) : Bool := decide ((0.80 : ℚ) < s)

/-- `potential_pairs`: all pairs with `a.id < b.id`, equal workspace tags
matching the parameter, and coarse distance below `0.20`, capped at
`LIMIT 100000`. -/
def potentialPairs (dist : List ℚ → List ℚ → ℚ) (rows : List ChunkRow)
    (ws : String) : List (ChunkRow × ChunkRow) :=
  ((rows.product rows).filter (fun ab =>
      decide (ab.1.id < ab.2.id) && decide (ab.1.workspace = ab.2.workspace)
        && decide (ab.1.workspace = ws)
        && coarseFilter (dist ab.1.embedding ab.2.embedding))).take 100000

/-- A row of `filtered_pairs` / `ranked_results`. -/
structure PairRow where
  a : ChunkRow
  b : ChunkRow
  similarity : ℚ
deriving DecidableEq, Repr

/-- `filtered_pairs`: drop trivially adjacent same-file pairs
(`a.file != b.file OR ABS(a.start_line - b.start_line) > 5`) and compute
`similarity_raw = 1 - (a.embedding <=> b.embedding)`. -/
def filteredPairs (dist : List ℚ → List ℚ → ℚ) (rows : List ChunkRow)
    (ws : String) : List PairRow :=
  ((potentialPairs dist rows ws).filter (fun ab =>
      decide (ab.1.file ≠ ab.2.file)
        || decide (5 < |ab.1.start_line - ab.2.start_line|))).map
    (fun ab => ⟨ab.1, ab.2, 1 - dist ab.1.embedding ab.2.embedding⟩)

/-- The pairs surviving the fine admission threshold
(`WHERE similarity_raw > 0.80`), before deduplication. -/
def survivingPairs (dist : List ℚ → List ℚ → ℚ) (rows : List ChunkRow)
    (ws : String) : List PairRow :=
  (filteredPairs dist rows ws).filter (fun r => fineFilter r.similarity)

/-- The `PARTITION BY` key:
`LEAST(file1,file2) || '|' || GREATEST(file1,file2)` and
`(LEAST(start_line1,start_line2) / 5) * 5`. -/
def bucketKey (r : PairRow) : String × Int :=
  (leastStr r.a.file r.b.file ++ "|" ++ greatestStr r.a.file r.b.file,
   Int.tdiv (leastInt r.a.start_line r.b.start_line) 5 * 5)

/-- Accumulator step selecting the row of maximal similarity (first listed
wins ties). -/
def betterOf (x : Option PairRow) (r : PairRow) : Option PairRow :=
  match x with
  | none => some r
  | some m => if m.similarity < r.similarity then some r else some m

/-- The `match_rank = 1` row of a partition. -/
def groupMax (l : List PairRow) (k : String × Int) : Option PairRow :=
  (l.filter (fun r => decide (bucketKey r = k))).foldl betterOf none

/-- Keep only the `match_rank = 1` row of each partition. -/
def dedupPairs (l : List PairRow) : List PairRow :=
  l.filter (fun r => decide (groupMax l (bucketKey r) = some r))

/-- `calculateSimilarity` from `pglite/pglite.ts`: coarse enumeration, the
adjacency filter, exact scoring with the fine threshold, per-bucket
deduplication, then `ORDER BY similarity_raw DESC LIMIT 50`. -/
def calculateSimilarity (dist : List ℚ → List ℚ → ℚ) (rows : List ChunkRow)
    (ws : String) : List PairRow :=
  ((dedupPairs (survivingPairs dist rows ws)).mergeSort
    (fun r s => decide (s.similarity ≤ r.similarity))).take 50

/-- Counterexample to Claim C4 as stated: no candidate value is admitted by
the coarse distance cap (`distance < 0.20`) yet rejected by the fine
similarity threshold (`similarity > 0.80`) under
`similarity = 1 - cosine_distance` — the two filters admit exactly the same
values, so the fine threshold is not strictly stricter. -/
theorem coarse_looser_than_fine_counterexample :
    ¬ ∃ d : ℚ, coarseFilter d = true ∧ fineFilter (1 - d) = false := by
  rintro ⟨d, hc, hf⟩
  simp only [coarseFilter, fineFilter, decide_eq_true_eq,
    decide_eq_false_iff_not, not_lt] at hc hf
  have h1 : (0.20 : ℚ) = 1 / 5 := by norm_num
  have h2 : (0.80 : ℚ) = 4 / 5 := by norm_num
  rw [h1] at hc
  rw [h2] at hf
  linarith

/-- Claim C4 (amended): under `similarity = 1 - cosine_distance` the coarse
admission filter (`distance < 0.20`) and the fine admission threshold
(`similarity > 0.80`) are exactly equally strict: a candidate passes the
coarse cap iff its exact similarity passes the fine cap.  The coarse cap is
not strictly looser than the fine cap. -/
theorem coarse_iff_fine (d : ℚ) :
    coarseFilter d = true ↔ fineFilter (1 - d) = true := by
  simp only [coarseFilter, fineFilter, decide_eq_true_eq]
  have h1 : (0.20 : ℚ) = 1 / 5 := by norm_num
  have h2 : (0.80 : ℚ) = 4 / 5 := by norm_num
  rw [h1, h2]
  constructor <;> intro h <;> linarith

/-! ### Membership and shape lemmas for the query pipeline -/

theorem mem_survivingPairs_shape (dist : List ℚ → List ℚ → ℚ)
    (rows : List ChunkRow) (ws : String) (r : PairRow)
    (hr : r ∈ survivingPairs dist rows ws) :
    r.a ∈ rows ∧ r.b ∈ rows
      ∧ r.similarity = 1 - dist r.a.embedding r.b.embedding
      ∧ r.a.id < r.b.id
      ∧ (r.a.file ≠ r.b.file ∨ 5 < |r.a.start_line - r.b.start_line|)
      ∧ (0.80 : ℚ) < r.similarity := by
  rw [survivingPairs] at hr
  rw [List.mem_filter] at hr
  obtain ⟨hmem, hfine⟩ := hr
  rw [filteredPairs, List.mem_map] at hmem
  obtain ⟨ab, hab, heq⟩ := hmem
  rw [List.mem_filter] at hab
  obtain ⟨hpot, hadj⟩ := hab
  have hpot2 := List.Sublist.mem hpot (List.take_sublist _ _)
  rw [List.mem_filter] at hpot2
  obtain ⟨hprod, hcond⟩ := hpot2
  obtain ⟨a, b⟩ := ab
  have hprod2 : (a, b) ∈ rows ×ˢ rows := hprod
  rw [List.mem_product] at hprod2
  simp only [Bool.and_eq_true, decide_eq_true_eq] at hcond
  simp only [Bool.or_eq_true, decide_eq_true_eq] at hadj
  simp only [fineFilter, decide_eq_true_eq] at hfine
  subst heq
  exact ⟨hprod2.1, hprod2.2, rfl, hcond.1.1.1, hadj, hfine⟩

theorem mem_calculateSimilarity_dedup (dist : List ℚ → List ℚ → ℚ)
    (rows : List ChunkRow) (ws : String) (r : PairRow)
    (hr : r ∈ calculateSimilarity dist rows ws) :
    r ∈ dedupPairs (survivingPairs dist rows ws) := by
  rw [calculateSimilarity] at hr
  have h1 := List.Sublist.mem hr (List.take_sublist _ _)
  exact (List.mergeSort_perm _ _).mem_iff.mp h1

theorem mem_dedupPairs_sub (l : List PairRow) (r : PairRow)
    (hr : r ∈ dedupPairs l) : r ∈ l ∧ groupMax l (bucketKey r) = some r := by
  rw [dedupPairs, List.mem_filter] at hr
  exact ⟨hr.1, of_decide_eq_true hr.2⟩

theorem foldl_betterOf_le (l : List PairRow) :
    ∀ (x m : PairRow), l.foldl betterOf (some x) = some m →
      x.similarity ≤ m.similarity := by
  induction l with
  | nil =>
    intro x m h
    injection h with h
    rw [h]
  | cons a l ih =>
    intro x m h
    rw [List.foldl_cons] at h
    rw [betterOf] at h
    by_cases hlt : x.similarity < a.similarity
    · rw [if_pos hlt] at h
      exact le_of_lt (lt_of_lt_of_le hlt (ih a m h))
    · rw [if_neg hlt] at h
      exact ih x m h

theorem foldl_betterOf_mem_le (l : List PairRow) :
    ∀ (acc : Option PairRow) (m : PairRow), l.foldl betterOf acc = some m →
      ∀ s ∈ l, s.similarity ≤ m.similarity := by
  induction l with
  | nil => simp
  | cons a l ih =>
    intro acc m h s hs
    rw [List.foldl_cons] at h
    rcases List.mem_cons.mp hs with hs | hs
    · subst hs
      have hstep : ∃ y, betterOf acc s = some y ∧ s.similarity ≤ y.similarity := by
        cases acc with
        | none => exact ⟨s, rfl, le_refl _⟩
        | some x =>
          rw [betterOf]
          by_cases hlt : x.similarity < s.similarity
          · exact ⟨s, by rw [if_pos hlt], le_refl _⟩
          · exact ⟨x, by rw [if_neg hlt], le_of_not_lt hlt⟩
      obtain ⟨y, hy, hsy⟩ := hstep
      rw [hy] at h
      exact le_trans hsy (foldl_betterOf_le l y m h)
    · exact ih (betterOf acc a) m h s hs

theorem groupMax_is_max (l : List PairRow) (k : String × Int) (r : PairRow)
    (h : groupMax l k = some r) :
    ∀ s ∈ l, bucketKey s = k → s.similarity ≤ r.similarity := by
  intro s hs hk
  exact foldl_betterOf_mem_le _ none r h s
    (List.mem_filter.mpr ⟨hs, decide_eq_true hk⟩)

/-- Claim C8: every pair returned by `calculateSimilarity` has similarity
strictly greater than the fine admission threshold `0.80`; the returned
pairs are sorted by similarity descending; and at most `50` pairs are
returned. -/
theorem calculateSimilarity_threshold_sorted_limited
    (dist : List ℚ → List ℚ → ℚ) (rows : List ChunkRow) (ws : String) :
    (∀ r ∈ calculateSimilarity dist rows ws, (0.80 : ℚ) < r.similarity)
      ∧ (calculateSimilarity dist rows ws).Sorted
          (fun p q => q.similarity ≤ p.similarity)
      ∧ (calculateSimilarity dist rows ws).length ≤ 50 := by
  refine ⟨?_, ?_, ?_⟩
  · intro r hr
    have h1 := mem_calculateSimilarity_dedup dist rows ws r hr
    have h2 := (mem_dedupPairs_sub _ r h1).1
    exact (mem_survivingPairs_shape dist rows ws r h2).2.2.2.2.2
  · have hsorted := @List.sorted_mergeSort PairRow
      (fun r s => decide (s.similarity ≤ r.similarity))
      (fun a b c hab hbc => by
        simp only [decide_eq_true_eq] at hab hbc ⊢
        exact le_trans hbc hab)
      (fun a b => by
        simp only [Bool.or_eq_true, decide_eq_true_eq]
        exact le_total b.similarity a.similarity)
      (dedupPairs (survivingPairs dist rows ws))
    have hsorted2 : ((dedupPairs (survivingPairs dist rows ws)).mergeSort
        (fun r s => decide (s.similarity ≤ r.similarity))).Pairwise
        (fun p q : PairRow => q.similarity ≤ p.similarity) :=
      hsorted.imp (fun h => of_decide_eq_true h)
    exact List.Pairwise.sublist (List.take_sublist _ _) hsorted2
  · rw [calculateSimilarity, List.length_take]
    exact min_le_left _ _

theorem pairRow_ext (p q : PairRow) (h1 : p.a = q.a) (h2 : p.b = q.b)
    (h3 : p.similarity = q.similarity) : p = q := by
  cases p; cases q; simp_all

theorem survivingPairs_nodup (dist : List ℚ → List ℚ → ℚ)
    (rows : List ChunkRow) (ws : String)
    (hn : (rows.map ChunkRow.id).Nodup) :
    (survivingPairs dist rows ws).Nodup := by
  have h0 : rows.Nodup := List.Nodup.of_map _ hn
  have h1 : (rows.product rows).Nodup := List.Nodup.product h0 h0
  have h2 : (potentialPairs dist rows ws).Nodup :=
    List.Nodup.sublist (List.take_sublist _ _) (h1.filter _)
  have hinj : Function.Injective (fun ab : ChunkRow × ChunkRow =>
      PairRow.mk ab.1 ab.2 (1 - dist ab.1.embedding ab.2.embedding)) := by
    intro x y h
    simp only [PairRow.mk.injEq] at h
    exact Prod.ext h.1 h.2.1
  have h3 : (filteredPairs dist rows ws).Nodup :=
    List.Nodup.map hinj (h2.filter _)
  exact h3.filter _

theorem dedupPairs_key_unique (l : List PairRow) (p q : PairRow)
    (hp : p ∈ dedupPairs l) (hq : q ∈ dedupPairs l)
    (hk : bucketKey p = bucketKey q) : p = q := by
  have h1 := (mem_dedupPairs_sub l p hp).2
  have h2 := (mem_dedupPairs_sub l q hq).2
  rw [hk] at h1
  have h3 := h1.symm.trans h2
  injection h3

/-- Claim C6: in the result set of `calculateSimilarity` there is at most
one pair per bucket key (unordered file-pair identity plus the 5-line
bucket of the minimum `start_line` rounded down to a multiple of 5), and
the pair kept for a bucket has the maximal similarity among all surviving
pairs of that bucket.  The hypothesis is the `SERIAL PRIMARY KEY`
uniqueness of chunk ids. -/
theorem calculateSimilarity_bucket_dedup (dist : List ℚ → List ℚ → ℚ)
    (rows : List ChunkRow) (ws : String)
    (hn : (rows.map ChunkRow.id).Nodup) :
    (calculateSimilarity dist rows ws).Pairwise
        (fun p q => bucketKey p ≠ bucketKey q)
      ∧ ∀ r ∈ calculateSimilarity dist rows ws,
          ∀ s ∈ survivingPairs dist rows ws,
            bucketKey s = bucketKey r → s.similarity ≤ r.similarity := by
  constructor
  · have hnd : (dedupPairs (survivingPairs dist rows ws)).Nodup :=
      (survivingPairs_nodup dist rows ws hn).filter _
    have hpw : (dedupPairs (survivingPairs dist rows ws)).Pairwise
        (fun p q => bucketKey p ≠ bucketKey q) := by
      refine List.Pairwise.imp_of_mem ?_ hnd
      intro p q hp hq hne hk
      exact hne (dedupPairs_key_unique _ p q hp hq hk)
    have hperm := List.mergeSort_perm (dedupPairs (survivingPairs dist rows ws))
      (fun r s => decide (s.similarity ≤ r.similarity))
    have h2 := (List.Perm.pairwise_iff
      (fun h he => h he.symm) hperm).mpr hpw
    exact List.Pairwise.sublist (List.take_sublist _ _) h2
  · intro r hr s hs hk
    have h1 := (mem_dedupPairs_sub _ r
      (mem_calculateSimilarity_dedup dist rows ws r hr)).2
    exact groupMax_is_max _ _ r h1 s hs hk

/-- Witness for C6 with two distinct-id rows. -/
theorem calculateSimilarity_bucket_dedup_witness :
    ((([ChunkRow.mk 1 1 5 "x" "a.ts" "w" [],
        ChunkRow.mk 2 1 5 "x" "b.ts" "w" []] : List ChunkRow).map
          ChunkRow.id).Nodup)
      ∧ ((calculateSimilarity (fun _ _ => 0)
            [ChunkRow.mk 1 1 5 "x" "a.ts" "w" [],
             ChunkRow.mk 2 1 5 "x" "b.ts" "w" []] "w").Pairwise
            (fun p q => bucketKey p ≠ bucketKey q)
          ∧ ∀ r ∈ calculateSimilarity (fun _ _ => 0)
              [ChunkRow.mk 1 1 5 "x" "a.ts" "w" [],
               ChunkRow.mk 2 1 5 "x" "b.ts" "w" []] "w",
              ∀ s ∈ survivingPairs (fun _ _ => 0)
                [ChunkRow.mk 1 1 5 "x" "a.ts" "w" [],
                 ChunkRow.mk 2 1 5 "x" "b.ts" "w" []] "w",
                bucketKey s = bucketKey r → s.similarity ≤ r.similarity) :=
  ⟨by decide,
   calculateSimilarity_bucket_dedup (fun _ _ => 0)
     [ChunkRow.mk 1 1 5 "x" "a.ts" "w" [],
      ChunkRow.mk 2 1 5 "x" "b.ts" "w" []] "w" (by decide)⟩

theorem survivingPairs_id_unique (dist : List ℚ → List ℚ → ℚ)
    (rows : List ChunkRow) (ws : String)
    (hn : (rows.map ChunkRow.id).Nodup) (p q : PairRow)
    (hp : p ∈ survivingPairs dist rows ws)
    (hq : q ∈ survivingPairs dist rows ws)
    (hida : p.a.id = q.a.id) (hidb : p.b.id = q.b.id) : p = q := by
  have sp := mem_survivingPairs_shape dist rows ws p hp
  have sq := mem_survivingPairs_shape dist rows ws q hq
  have ha : p.a = q.a := List.inj_on_of_nodup_map hn sp.1 sq.1 hida
  have hb : p.b = q.b := List.inj_on_of_nodup_map hn sp.2.1 sq.2.1 hidb
  refine pairRow_ext p q ha hb ?_
  rw [sp.2.2.1, sq.2.2.1, ha, hb]

/-- Claim C7: every pair returned by `calculateSimilarity` is canonical —
`chunk_a.id < chunk_b.id` and the two chunks are in different files or
their start lines differ by more than the window size (5) — and, given the
`SERIAL PRIMARY KEY` uniqueness of chunk ids, each unordered pair of
distinct chunks is reported at most once (no two result entries carry the
same id pair). -/
theorem calculateSimilarity_canonical (dist : List ℚ → List ℚ → ℚ)
    (rows : List ChunkRow) (ws : String)
    (hn : (rows.map ChunkRow.id).Nodup) :
    (∀ r ∈ calculateSimilarity dist rows ws,
        r.a.id < r.b.id
          ∧ (r.a.file ≠ r.b.file ∨ 5 < |r.a.start_line - r.b.start_line|))
      ∧ (calculateSimilarity dist rows ws).Pairwise
          (fun p q => ¬(p.a.id = q.a.id ∧ p.b.id = q.b.id)) := by
  constructor
  · intro r hr
    have h1 := (mem_dedupPairs_sub _ r
      (mem_calculateSimilarity_dedup dist rows ws r hr)).1
    have h2 := mem_survivingPairs_shape dist rows ws r h1
    exact ⟨h2.2.2.2.1, h2.2.2.2.2.1⟩
  · have hnd : (dedupPairs (survivingPairs dist rows ws)).Nodup :=
      (survivingPairs_nodup dist rows ws hn).filter _
    have hpw : (dedupPairs (survivingPairs dist rows ws)).Pairwise
        (fun p q => ¬(p.a.id = q.a.id ∧ p.b.id = q.b.id)) := by
      refine List.Pairwise.imp_of_mem ?_ hnd
      intro p q hp hq hne hid
      exact hne (survivingPairs_id_unique dist rows ws hn p q
        (mem_dedupPairs_sub _ p hp).1 (mem_dedupPairs_sub _ q hq).1
        hid.1 hid.2)
    have hperm := List.mergeSort_perm (dedupPairs (survivingPairs dist rows ws))
      (fun r s => decide (s.similarity ≤ r.similarity))
    have h2 := (List.Perm.pairwise_iff
      (fun h he => h ⟨he.1.symm, he.2.symm⟩) hperm).mpr hpw
    exact List.Pairwise.sublist (List.take_sublist _ _) h2

/-- Witness for C7 with two distinct-id rows. -/
theorem calculateSimilarity_canonical_witness :
    ((([ChunkRow.mk 1 1 5 "x" "a.ts" "w" [],
        ChunkRow.mk 2 1 5 "x" "b.ts" "w" []] : List ChunkRow).map
          ChunkRow.id).Nodup)
      ∧ ((∀ r ∈ calculateSimilarity (fun _ _ => 0)
            [ChunkRow.mk 1 1 5 "x" "a.ts" "w" [],
             ChunkRow.mk 2 1 5 "x" "b.ts" "w" []] "w",
            r.a.id < r.b.id
              ∧ (r.a.file ≠ r.b.file ∨ 5 < |r.a.start_line - r.b.start_line|))
          ∧ (calculateSimilarity (fun _ _ => 0)
              [ChunkRow.mk 1 1 5 "x" "a.ts" "w" [],
               ChunkRow.mk 2 1 5 "x" "b.ts" "w" []] "w").Pairwise
              (fun p q => ¬(p.a.id = q.a.id ∧ p.b.id = q.b.id))) :=
  ⟨by decide,
   calculateSimilarity_canonical (fun _ _ => 0)
     [ChunkRow.mk 1 1 5 "x" "a.ts" "w" [],
      ChunkRow.mk 2 1 5 "x" "b.ts" "w" []] "w" (by decide)⟩

end Rai
